import Mathlib

/-! Bloom filter of package `bf`.

A shallow embedding of `bf.go`.

* A Go `[]bool` / `[]byte` / `[]uint64` slice is a `List`; a slice access whose
  index is out of range, an integer division by zero and a `make` with a
  negative length are run-time panics in Go and are modelled by `none`.
* The mutex is not modelled: every operation is one atomic step of a
  sequential state machine.
* `hash.Hash64` is an interface of the Go standard library.  An instance is
  modelled by the digest function it implements together with the bytes
  written into it since its last `Reset`.  The instances held by a filter are
  taken to be pairwise distinct objects.
* `make` panics on a negative length and on a length above the runtime's
  `maxAlloc`; running out of physical memory below that limit is not modelled.
-/

set_option maxRecDepth 100000

/-- A Go `byte`. -/
abbrev Byte := Fin 256

/-- The Go type `error`; `none : Option error` is the `nil` error. -/
abbrev error := String

/-- The Go type `string`. -/
abbrev GoString := String

/-- An instance of the interface `hash.Hash64`: `digest` is the hash function
the instance implements, `written` the bytes written since the last reset. -/
structure Hash64 where
  digest : List Byte → Nat
  written : List Byte

/-- `Write` adds more data to the running hash. -/
def Hash64.Write (h : Hash64) (p : List Byte) : Hash64 :=
  { h with written := h.written ++ p }

/-- `Sum64` is the 64-bit digest of the data written so far. -/
def Hash64.Sum64 (h : Hash64) : Nat :=
  h.digest h.written % 2 ^ 64

/-- `Reset` brings the hash back to its initial state. -/
def Hash64.Reset (h : Hash64) : Hash64 :=
  { h with written := [] }

/-! ## The four hash functions used by `Basic` (Go standard library) -/

/-- Offset basis of 64-bit FNV (`hash/fnv`). -/
def fnvOffset64 : Nat := 14695981039346656037

/-- Prime of 64-bit FNV (`hash/fnv`). -/
def fnvPrime64 : Nat := 1099511628211

/-- FNV-1, 64 bit (`fnv.New64`): multiply, then xor. -/
def fnv64 (p : List Byte) : Nat :=
  p.foldl (fun hash c => ((hash * fnvPrime64) % 2 ^ 64) ^^^ c.val) fnvOffset64

/-- FNV-1a, 64 bit (`fnv.New64a`): xor, then multiply. -/
def fnv64a (p : List Byte) : Nat :=
  p.foldl (fun hash c => ((hash ^^^ c.val) * fnvPrime64) % 2 ^ 64) fnvOffset64

/-- The ISO polynomial of `hash/crc64`. -/
def crc64ISO : Nat := 0xD800000000000000

/-- The ECMA polynomial of `hash/crc64`. -/
def crc64ECMA : Nat := 0xC96C5795D7870F42

/-- Entry `i` of the table `crc64.MakeTable poly`. -/
def crc64Entry (poly i : Nat) : Nat :=
  (List.range 8).foldl
    (fun crc _ => if crc &&& 1 = 1 then (crc >>> 1) ^^^ poly else crc >>> 1) i

/-- The update function of `hash/crc64`, started from the CRC `crc`. -/
def crc64Update (poly crc : Nat) (p : List Byte) : Nat :=
  let crc := crc ^^^ (2 ^ 64 - 1)
  let crc := p.foldl
    (fun crc v => crc64Entry poly ((crc % 256) ^^^ v.val) ^^^ (crc >>> 8)) crc
  crc ^^^ (2 ^ 64 - 1)

/-- CRC-64 of a byte sequence (`crc64.New (crc64.MakeTable poly)`). -/
def crc64 (poly : Nat) (p : List Byte) : Nat :=
  crc64Update poly 0 p

/-! ## The filter -/

/-- The struct `BloomFilter` (without its mutex). -/
structure BloomFilter where
  bitset : List Bool
  hashfns : List Hash64

/-- The loop of `sums`: every hasher is written to, read and reset, in
order.  Returns the digests and the hashers as the loop leaves them. -/
def BloomFilter.sumsLoop (data : List Byte) : List Hash64 → List Nat × List Hash64
  | [] => ([], [])
  | hashfn :: rest =>
    let hashfn := hashfn.Write data
    let sum := hashfn.Sum64
    let hashfn := hashfn.Reset
    let r := BloomFilter.sumsLoop data rest
    (sum :: r.1, hashfn :: r.2)

/-- The method `sums`: the digests of `data`, and the filter with the
hashers as the call leaves them. -/
def BloomFilter.sums (bl : BloomFilter) (data : List Byte) : List Nat × BloomFilter :=
  let r := BloomFilter.sumsLoop data bl.hashfns
  (r.1, { bl with hashfns := r.2 })

/-- The method `index`: `sum % uint64(len(bl.bitset))`; panics with a
division by zero on an empty bitset. -/
def BloomFilter.index (bl : BloomFilter) (sum : Nat) : Option Nat :=
  if bl.bitset.length = 0 then none else some (sum % bl.bitset.length)

/-- The assignment `bits[i] = true`; panics when `i` is out of range. -/
def setBit (bits : List Bool) (i : Nat) : Option (List Bool) :=
  if i < bits.length then some (bits.set i true) else none

/-- The loop of `Insert` over the digests. -/
def BloomFilter.insertLoop : BloomFilter → List Nat → Option BloomFilter
  | bl, [] => some bl
  | bl, sum :: rest =>
    match bl.index sum with
    | none => none
    | some i =>
      match setBit bl.bitset i with
      | none => none
      | some bits => BloomFilter.insertLoop { bl with bitset := bits } rest

/-- The method `Insert`. -/
def BloomFilter.Insert (bl : BloomFilter) (data : List Byte) : Option BloomFilter :=
  let r := bl.sums data
  BloomFilter.insertLoop r.2 r.1

/-- The loop of `Search` over the digests: it returns `true` at the first
digest whose bit is set, and `false` when the digests are exhausted. -/
def BloomFilter.searchLoop (bl : BloomFilter) : List Nat → Option Bool
  | [] => some false
  | sum :: rest =>
    match bl.index sum with
    | none => none
    | some i =>
      match bl.bitset[i]? with
      | none => none
      | some bit => if bit then some true else BloomFilter.searchLoop bl rest

/-- The method `Search`: the result `pos` and the filter after the call. -/
def BloomFilter.Search (bl : BloomFilter) (data : List Byte) : Option (Bool × BloomFilter) :=
  let r := bl.sums data
  match BloomFilter.searchLoop r.2 r.1 with
  | none => none
  | some pos => some (pos, r.2)

/-- The method `String`. -/
def BloomFilter.String (bl : BloomFilter) : GoString :=
  bl.bitset.foldl (fun sb bit => sb.push (if bit then '1' else '0')) ""

/-- The statement `data[i/8] |= 0x80 >> (i % 8)`; panics when `i / 8` is out
of range. -/
def orBit (data : List Byte) (i : Nat) : Option (List Byte) :=
  match data[i / 8]? with
  | none => none
  | some b => some (data.set (i / 8) (Fin.ofNat (b.val ||| (0x80 >>> (i % 8)))))

/-- The loop of `MarshalBinary`; `i` is the index of the head of the
remaining bits. -/
def marshalLoop : List Bool → Nat → List Byte → Option (List Byte)
  | [], _, data => some data
  | bit :: rest, i, data =>
    if bit then
      match orBit data i with
      | none => none
      | some data => marshalLoop rest (i + 1) data
    else marshalLoop rest (i + 1) data

/-- The method `MarshalBinary`: the pair `(data, err)`. -/
def BloomFilter.MarshalBinary (bl : BloomFilter) : Option (List Byte × Option error) :=
  match marshalLoop bl.bitset 0 (List.replicate ((bl.bitset.length + 7) / 8) 0) with
  | none => none
  | some data => some (data, none)

/-- The inner loop of `UnmarshalBinary` for the byte `bit` at index `i`,
from `j` up to 8 (`fuel` iterations are left). -/
def unmarshalByte (i : Nat) (bit : Byte) : Nat → Nat → List Bool → Option (List Bool)
  | 0, _, bits => some bits
  | fuel + 1, j, bits =>
    if ((bit.val <<< j) % 256) &&& 0x80 = 0x80 then
      match setBit bits (i * 8 + j) with
      | none => none
      | some bits => unmarshalByte i bit fuel (j + 1) bits
    else unmarshalByte i bit fuel (j + 1) bits

/-- The outer loop of `UnmarshalBinary`; `i` is the index of the head of the
remaining bytes. -/
def unmarshalLoop : List Byte → Nat → List Bool → Option (List Bool)
  | [], _, bits => some bits
  | bit :: rest, i, bits =>
    match unmarshalByte i bit 8 0 bits with
    | none => none
    | some bits => unmarshalLoop rest (i + 1) bits

/-- The method `UnmarshalBinary`: the filter after the call and `err`. -/
def BloomFilter.UnmarshalBinary (bl : BloomFilter) (data : List Byte) :
    Option (BloomFilter × Option error) :=
  match unmarshalLoop data 0 (List.replicate (data.length * 8) false) with
  | none => none
  | some bits => some ({ bl with bitset := bits }, none)

/-- Two's-complement wrap-around of a 64-bit Go `int`. -/
def wrapInt (x : Int) : Int :=
  (x + 2 ^ 63) % 2 ^ 64 - 2 ^ 63

/-- The constant `maxAlloc` of the Go runtime on a 64-bit platform (48 heap
address bits): `make([]bool, n)` panics with "makeslice: len out of range"
when `n` bytes are more than `maxAlloc`. -/
def maxAlloc : Nat := 2 ^ 48

/-- The constructor `Custom`: `size += size % 8` (Go's `%` truncates towards
zero), then `make([]bool, size)`, which panics on a negative length and on a
length above `maxAlloc`. -/
def Custom (size : Int) (hashfns : List Hash64) : Option BloomFilter :=
  let size := wrapInt (size + Int.tmod size 8)
  if size < 0 ∨ (maxAlloc : Int) < size then none
  else some { bitset := List.replicate size.toNat false, hashfns := hashfns }

/-- The four hashers `Basic` creates: `fnv.New64()`, `fnv.New64a()` and CRC-64
with the ISO and the ECMA table, each in its initial state. -/
def basicHashfns : List Hash64 :=
  [ { digest := fnv64, written := [] },
    { digest := fnv64a, written := [] },
    { digest := crc64 crc64ISO, written := [] },
    { digest := crc64 crc64ECMA, written := [] } ]

/-- The constructor `Basic`. -/
def Basic (size : Int) : Option BloomFilter :=
  Custom size basicHashfns

/-! ## Calls and call sequences -/

/-- A call of one of the five public methods. -/
inductive Call where
  | insert (data : List Byte)
  | search (data : List Byte)
  | string
  | marshalBinary
  | unmarshalBinary (data : List Byte)

/-- The filter after a call (`none` when the call panics). -/
def BloomFilter.step (bl : BloomFilter) : Call → Option BloomFilter
  | Call.insert data => bl.Insert data
  | Call.search data => (bl.Search data).map (fun r => r.2)
  | Call.string => (some bl.String).map (fun _ => bl)
  | Call.marshalBinary => bl.MarshalBinary.map (fun _ => bl)
  | Call.unmarshalBinary data => (bl.UnmarshalBinary data).map (fun r => r.1)

/-- A sequence of `Insert` calls, one per element of the list. -/
def BloomFilter.insertAll : BloomFilter → List (List Byte) → Option BloomFilter
  | bl, [] => some bl
  | bl, x :: xs =>
    match bl.Insert x with
    | none => none
    | some bl => BloomFilter.insertAll bl xs

/-- The bytes of the Go string literal "Hello, world!". -/
def helloWorld : List Byte :=
  [72, 101, 108, 108, 111, 44, 32, 119, 111, 114, 108, 100, 33]

/-! ## Auxiliary functions used in the statements and proofs -/

/-- The bits after marking position `s % len` for every `s` of `ss`. -/
def markAll (bits : List Bool) (ss : List Nat) : List Bool :=
  ss.foldl (fun b s => b.set (s % b.length) true) bits

/-- Bit `p` of a byte sequence, most significant bit of each byte first. -/
def bitAt (data : List Byte) (p : Nat) : Option Bool :=
  data[p / 8]?.map (fun b => b.val.testBit (7 - p % 8))

/-- A sequence of calls, executed one after the other. -/
def BloomFilter.run : BloomFilter → List Call → Option BloomFilter
  | bl, [] => some bl
  | bl, c :: cs =>
    match bl.step c with
    | none => none
    | some bl => BloomFilter.run bl cs

/-! ## Two goroutines calling `Insert`

The body of `Insert` is split into the steps another goroutine can come in
between: the three method calls `sums` makes on each hasher, taking the
mutex, the loop over the digests (one step, since it runs under the mutex)
and the deferred release of the mutex. -/

/-- A step of a goroutine that executes `Insert`. -/
inductive InsertStep where
  | hashWrite (i : Nat) (data : List Byte)
  | hashSum64 (i : Nat)
  | hashReset (i : Nat)
  | lock
  | setBits
  | unlock

/-- The steps of `Insert(data)` in program order on a filter with `n`
hashers: first `bl.sums(data)`, hasher by hasher `Write`, `Sum64`, `Reset`;
then `bl.mu.Lock()`, the loop over the digests and the deferred
`bl.mu.Unlock()`. -/
def insertActions (n : Nat) (data : List Byte) : List InsertStep :=
  (List.range n).flatMap
      (fun i => [InsertStep.hashWrite i data, InsertStep.hashSum64 i, InsertStep.hashReset i]) ++
    [InsertStep.lock, InsertStep.setBits, InsertStep.unlock]

/-- A goroutine inside `Insert`: the steps it still has to make and its local
slice `sums`. -/
structure Goroutine where
  todo : List InsertStep
  sums : List Nat

/-- The filter shared by the goroutines, the goroutine that holds `bl.mu`
(if any), and a flag that records whether a hasher method was called by a
goroutine that did not hold `bl.mu`. -/
structure Shared where
  bl : BloomFilter
  holder : Option Bool
  unguarded : Bool

/-- Goroutine `t` calls a method on hasher `i`. -/
def Shared.onHasher (s : Shared) (t : Bool) (i : Nat) (f : Hash64 → Hash64) : Option Shared :=
  match s.bl.hashfns[i]? with
  | none => none
  | some h =>
    some { bl := { s.bl with hashfns := s.bl.hashfns.set i (f h) },
           holder := s.holder,
           unguarded := s.unguarded || !(s.holder == some t) }

/-- Goroutine `t` makes the step `a`; `none` when the step panics or cannot
be made now (`Lock` while the mutex is held). -/
def Shared.act (s : Shared) (t : Bool) (sums : List Nat) : InsertStep → Option (Shared × List Nat)
  | InsertStep.hashWrite i data => (s.onHasher t i (fun h => h.Write data)).map (fun s => (s, sums))
  | InsertStep.hashSum64 i =>
    match s.bl.hashfns[i]? with
    | none => none
    | some h => (s.onHasher t i (fun h => h)).map (fun s => (s, sums.set i h.Sum64))
  | InsertStep.hashReset i => (s.onHasher t i (fun h => h.Reset)).map (fun s => (s, sums))
  | InsertStep.lock =>
    match s.holder with
    | some _ => none
    | none => some ({ s with holder := some t }, sums)
  | InsertStep.setBits => (s.bl.insertLoop sums).map (fun bl => ({ s with bl := bl }, sums))
  | InsertStep.unlock => some ({ s with holder := none }, sums)

/-- Two goroutines and the filter they share. -/
structure Race where
  shared : Shared
  first : Goroutine
  second : Goroutine

/-- The goroutine chosen by the scheduler makes its next step. -/
def Race.next (sys : Race) (t : Bool) : Option Race :=
  let g := if t then sys.second else sys.first
  match g.todo with
  | [] => none
  | a :: rest =>
    match sys.shared.act t g.sums a with
    | none => none
    | some r =>
      let g := { todo := rest, sums := r.2 }
      some (if t then { sys with shared := r.1, second := g }
            else { sys with shared := r.1, first := g })

/-- An interleaving: the scheduler picks the first (`false`) or the second
(`true`) goroutine, step after step. -/
def Race.exec : Race → List Bool → Option Race
  | sys, [] => some sys
  | sys, t :: ts =>
    match sys.next t with
    | none => none
    | some sys => Race.exec sys ts

/-- Two goroutines enter `Insert(x)` and `Insert(y)` on the same filter. -/
def twoInserts (bl : BloomFilter) (x y : List Byte) : Race :=
  { shared := { bl := bl, holder := none, unguarded := false },
    first := { todo := insertActions bl.hashfns.length x,
               sums := List.replicate bl.hashfns.length 0 },
    second := { todo := insertActions bl.hashfns.length y,
                sums := List.replicate bl.hashfns.length 0 } }

/-- An interleaving of two `Insert` calls on a filter with four hashers: on
every hasher the first goroutine calls `Write`, then the second calls `Write`,
then the first calls `Sum64` and `Reset`, then the second calls `Sum64` and
`Reset`; after that the first goroutine locks, sets its bits and unlocks, and
then the second does. -/
def raceSchedule : List Bool :=
  [false, true, false, false, true, true,
   false, true, false, false, true, true,
   false, true, false, false, true, true,
   false, true, false, false, true, true,
   false, false, false, true, true, true]

/-! ## Digests, `Insert` and `Search` -/

theorem sumsLoop_fst (data : List Byte) (hs : List Hash64) :
    (BloomFilter.sumsLoop data hs).1 = hs.map (fun h => (h.Write data).Sum64) := by
  induction hs with
  | nil => rfl
  | cons h t ih => simp [BloomFilter.sumsLoop, ih]

theorem sumsLoop_snd (data : List Byte) (hs : List Hash64) :
    (BloomFilter.sumsLoop data hs).2 = hs.map (fun h => (h.Write data).Reset) := by
  induction hs with
  | nil => rfl
  | cons h t ih => simp [BloomFilter.sumsLoop, ih]

theorem sums_fst (bl : BloomFilter) (data : List Byte) :
    (bl.sums data).1 = bl.hashfns.map (fun h => (h.Write data).Sum64) := by
  simp [BloomFilter.sums, sumsLoop_fst]

theorem sums_snd (bl : BloomFilter) (data : List Byte) :
    (bl.sums data).2 =
      { bitset := bl.bitset, hashfns := bl.hashfns.map (fun h => (h.Write data).Reset) } := by
  simp [BloomFilter.sums, sumsLoop_snd]

theorem length_markAll (ss : List Nat) (bits : List Bool) :
    (markAll bits ss).length = bits.length := by
  induction ss generalizing bits with
  | nil => rfl
  | cons s t ih =>
    have := ih (bits.set (s % bits.length) true)
    simpa [markAll] using this

theorem getElem?_markAll (ss : List Nat) (bits : List Bool) (j : Nat) :
    (markAll bits ss)[j]? = some true ↔
      bits[j]? = some true ∨ (j < bits.length ∧ ∃ s ∈ ss, j = s % bits.length) := by
  induction ss generalizing bits with
  | nil => simp [markAll]
  | cons s t ih =>
    have h := ih (bits.set (s % bits.length) true)
    have e : markAll bits (s :: t) = markAll (bits.set (s % bits.length) true) t := rfl
    rw [e, h, List.length_set, List.getElem?_set]
    by_cases hj : s % bits.length = j
    · subst hj
      by_cases hl : s % bits.length < bits.length
      · simp [hl]
      · simp [hl]
        intro hb
        have := List.getElem?_eq_none (Nat.le_of_not_lt hl)
        rw [this] at hb
        exact absurd hb (by simp)
    · simp only [hj, if_false, List.mem_cons, exists_eq_or_imp]
      have hj' : ¬ j = s % bits.length := fun h => hj h.symm
      simp [hj']

theorem insertLoop_eq (ss : List Nat) (bl : BloomFilter) (hne : bl.bitset ≠ []) :
    BloomFilter.insertLoop bl ss =
      some { bitset := markAll bl.bitset ss, hashfns := bl.hashfns } := by
  induction ss generalizing bl with
  | nil => rfl
  | cons s t ih =>
    have hlen : bl.bitset.length ≠ 0 := by
      intro h; exact hne (List.length_eq_zero.mp h)
    have hlt : s % bl.bitset.length < bl.bitset.length := Nat.mod_lt _ (Nat.pos_of_ne_zero hlen)
    have hne' : (bl.bitset.set (s % bl.bitset.length) true) ≠ [] := by
      intro h
      have := congrArg List.length h
      simp at this
      exact hne this
    have := ih { bitset := bl.bitset.set (s % bl.bitset.length) true, hashfns := bl.hashfns } hne'
    simp only [BloomFilter.insertLoop, BloomFilter.index, hlen, if_false, setBit, hlt, if_true]
    rw [this]
    rfl

theorem searchLoop_eq (ss : List Nat) (bl : BloomFilter) (hne : bl.bitset ≠ []) :
    BloomFilter.searchLoop bl ss =
      some (ss.any (fun s => bl.bitset[s % bl.bitset.length]? == some true)) := by
  have hlen : bl.bitset.length ≠ 0 := by
    intro h; exact hne (List.length_eq_zero.mp h)
  induction ss with
  | nil => rfl
  | cons s t ih =>
    have hlt : s % bl.bitset.length < bl.bitset.length := Nat.mod_lt _ (Nat.pos_of_ne_zero hlen)
    simp only [BloomFilter.searchLoop, BloomFilter.index, hlen, if_false, List.any_cons]
    rw [List.getElem?_eq_getElem hlt]
    cases hb : bl.bitset[s % bl.bitset.length] with
    | true => simp
    | false => simp [ih]

theorem insert_eq (bl : BloomFilter) (x : List Byte) (hne : bl.bitset ≠ []) :
    bl.Insert x = some
      { bitset := markAll bl.bitset (bl.hashfns.map (fun h => (h.Write x).Sum64)),
        hashfns := bl.hashfns.map (fun h => (h.Write x).Reset) } := by
  unfold BloomFilter.Insert
  simp only [sums_fst, sums_snd]
  exact insertLoop_eq _
    { bitset := bl.bitset, hashfns := bl.hashfns.map (fun h => (h.Write x).Reset) } hne

theorem search_eq (bl : BloomFilter) (x : List Byte) (hne : bl.bitset ≠ []) :
    bl.Search x = some
      ((bl.hashfns.map (fun h => (h.Write x).Sum64)).any
          (fun s => bl.bitset[s % bl.bitset.length]? == some true),
        { bitset := bl.bitset, hashfns := bl.hashfns.map (fun h => (h.Write x).Reset) }) := by
  unfold BloomFilter.Search
  simp only [sums_fst, sums_snd]
  rw [searchLoop_eq _
    { bitset := bl.bitset, hashfns := bl.hashfns.map (fun h => (h.Write x).Reset) } hne]

theorem map_reset_of_reset (hs : List Hash64) (x : List Byte)
    (hr : ∀ h ∈ hs, h.written = []) :
    hs.map (fun h => (h.Write x).Reset) = hs := by
  induction hs with
  | nil => rfl
  | cons h t ih =>
    have h1 : h.written = [] := hr h (List.mem_cons_self _ _)
    have h2 := ih (fun g hg => hr g (List.mem_cons_of_mem _ hg))
    rw [List.map_cons, h2]
    congr 1
    cases h with
    | mk d w =>
      simp only at h1
      subst h1
      rfl

theorem markAll_ne_nil (bits : List Bool) (ss : List Nat) (hne : bits ≠ []) :
    markAll bits ss ≠ [] := by
  intro h
  have := congrArg List.length h
  rw [length_markAll] at this
  exact hne (List.length_eq_zero.mp this)

/-- A run of inserts on a filter with a non-empty bitset and reset hashers
completes, keeps the hashers and the length, and keeps every set bit. -/
theorem insertAll_spec (ys : List (List Byte)) (bl : BloomFilter) (hne : bl.bitset ≠ [])
    (hr : ∀ h ∈ bl.hashfns, h.written = []) :
    ∃ bl2, bl.insertAll ys = some bl2 ∧ bl2.hashfns = bl.hashfns ∧
      bl2.bitset.length = bl.bitset.length ∧
      ∀ j : Nat, bl.bitset[j]? = some true → bl2.bitset[j]? = some true := by
  induction ys generalizing bl with
  | nil => exact ⟨bl, rfl, rfl, rfl, fun _ h => h⟩
  | cons y t ih =>
    have hi := insert_eq bl y hne
    rw [map_reset_of_reset _ _ hr] at hi
    obtain ⟨bl2, h1, h2, h3, h4⟩ :=
      ih { bitset := markAll bl.bitset (bl.hashfns.map (fun h => (h.Write y).Sum64)),
           hashfns := bl.hashfns } (markAll_ne_nil _ _ hne) hr
    refine ⟨bl2, ?_, h2, ?_, ?_⟩
    · simp only [BloomFilter.insertAll, hi]
      exact h1
    · rw [h3]; exact length_markAll _ _
    · intro j hj
      apply h4
      exact (getElem?_markAll _ _ _).mpr (Or.inl hj)

/-- No false negatives on any filter state whose bitset is non-empty and whose
hashers, at least one, are all in their reset state. -/
theorem search_after_insert (bl : BloomFilter) (x : List Byte) (ys : List (List Byte))
    (hne : bl.bitset ≠ []) (hh : bl.hashfns ≠ [])
    (hr : ∀ h ∈ bl.hashfns, h.written = []) :
    ∃ bl1 bl2 bl3, bl.Insert x = some bl1 ∧ bl1.insertAll ys = some bl2 ∧
      bl2.Search x = some (true, bl3) := by
  have hi := insert_eq bl x hne
  rw [map_reset_of_reset _ _ hr] at hi
  obtain ⟨bl2, h1, h2, h3, h4⟩ :=
    insertAll_spec ys
      { bitset := markAll bl.bitset (bl.hashfns.map (fun h => (h.Write x).Sum64)),
        hashfns := bl.hashfns } (markAll_ne_nil _ _ hne) hr
  have hne2 : bl2.bitset ≠ [] := by
    intro h
    have := congrArg List.length h
    rw [h3, length_markAll] at this
    exact hne (List.length_eq_zero.mp this)
  have h2' : bl2.hashfns = bl.hashfns := h2
  have hlen : bl2.bitset.length = bl.bitset.length := by rw [h3]; exact length_markAll _ _
  have hpos : 0 < bl.bitset.length := List.length_pos.mpr hne
  obtain ⟨g, t, hgt⟩ := List.exists_cons_of_ne_nil hh
  have hany : (bl2.hashfns.map (fun h => (h.Write x).Sum64)).any
      (fun s => bl2.bitset[s % bl2.bitset.length]? == some true) = true := by
    rw [List.any_eq_true]
    refine ⟨(g.Write x).Sum64, by simp [h2', hgt], ?_⟩
    rw [beq_iff_eq, hlen]
    apply h4
    apply (getElem?_markAll _ _ _).mpr
    right
    exact ⟨Nat.mod_lt _ hpos, (g.Write x).Sum64, by simp [hgt], rfl⟩
  refine ⟨_, bl2, BloomFilter.mk bl2.bitset (bl2.hashfns.map (fun h => (h.Write x).Reset)),
    hi, h1, ?_⟩
  rw [search_eq bl2 x hne2, hany]

/-! ## Bytes and bits -/

theorem testBit_orByte (b : Byte) (r s : Nat) (hs : s < 8) :
    (Fin.ofNat (b.val ||| (0x80 >>> r)) : Byte).val.testBit (7 - s) =
      (b.val.testBit (7 - s) || decide (r = s)) := by
  have e : (Fin.ofNat (b.val ||| (0x80 >>> r)) : Byte).val = (b.val ||| (2 ^ 7 >>> r)) % 2 ^ 8 := rfl
  rw [e, Nat.testBit_mod_two_pow, Nat.testBit_or, Nat.testBit_shiftRight, Nat.testBit_two_pow]
  have h1 : decide (7 - s < 8) = true := by simp; omega
  have h2 : decide (7 = r + (7 - s)) = decide (r = s) := by
    apply decide_eq_decide.mpr; omega
  rw [h1, h2]; simp

theorem shl_and_fin : ∀ (b : Fin 256) (j : Fin 8),
    (((b.val <<< j.val) % 256) &&& 0x80 = 0x80) ↔ b.val.testBit (7 - j.val) = true := by
  decide

theorem mask_and_fin : ∀ (b : Fin 256) (r : Fin 8),
    (b.val &&& (0x80 >>> r.val) ≠ 0) ↔ b.val.testBit (7 - r.val) = true := by
  decide

theorem shl_and (b : Byte) (j : Nat) (hj : j < 8) :
    (((b.val <<< j) % 256) &&& 0x80 = 0x80) ↔ b.val.testBit (7 - j) = true :=
  shl_and_fin b ⟨j, hj⟩

theorem mask_and (b : Byte) (r : Nat) (hr : r < 8) :
    (b.val &&& (0x80 >>> r) ≠ 0) ↔ b.val.testBit (7 - r) = true :=
  mask_and_fin b ⟨r, hr⟩

theorem getElem?_of_true_iff (bits : List Bool) (p : Nat) (v : Bool) (hp : p < bits.length)
    (h : bits[p]? = some true ↔ v = true) : bits[p]? = some v := by
  rw [List.getElem?_eq_getElem hp] at h ⊢
  cases hb : bits[p] <;> cases v <;> simp_all

theorem getElem?_replicate_false (n p : Nat) :
    ¬ (List.replicate n false)[p]? = some true := by
  intro h
  rw [List.getElem?_replicate] at h
  split at h <;> simp at h

/-! ## `UnmarshalBinary` -/

theorem unmarshalByte_spec (i : Nat) (bit : Byte) (fuel : Nat) :
    ∀ (j : Nat) (bits : List Bool), j + fuel ≤ 8 → i * 8 + 8 ≤ bits.length →
      ∃ bits', unmarshalByte i bit fuel j bits = some bits' ∧ bits'.length = bits.length ∧
        ∀ p : Nat, bits'[p]? = some true ↔ bits[p]? = some true ∨
          ∃ k, j ≤ k ∧ k < j + fuel ∧ p = i * 8 + k ∧ bit.val.testBit (7 - k) = true := by
  induction fuel with
  | zero =>
    intro j bits _ _
    refine ⟨bits, rfl, rfl, fun p => ?_⟩
    constructor
    · exact fun h => Or.inl h
    · rintro (h | ⟨k, h1, h2, -⟩)
      · exact h
      · omega
  | succ fuel ih =>
    intro j bits hj hlen
    have hj8 : j < 8 := by omega
    by_cases hc : ((bit.val <<< j) % 256) &&& 0x80 = 0x80
    · have hlt : i * 8 + j < bits.length := by omega
      obtain ⟨bits', h1, h2, h3⟩ := ih (j + 1) (bits.set (i * 8 + j) true) (by omega)
        (by rw [List.length_set]; exact hlen)
      refine ⟨bits', ?_, ?_, fun p => ?_⟩
      · simp only [unmarshalByte, hc, if_true, setBit, hlt]
        exact h1
      · rw [h2, List.length_set]
      · rw [h3, List.getElem?_set]
        have ht := (shl_and bit j hj8).mp hc
        constructor
        · rintro (h | ⟨k, k1, k2, k3, k4⟩)
          · by_cases hp : i * 8 + j = p
            · exact Or.inr ⟨j, le_refl _, by omega, hp.symm, ht⟩
            · rw [if_neg hp] at h
              exact Or.inl h
          · exact Or.inr ⟨k, by omega, by omega, k3, k4⟩
        · rintro (h | ⟨k, k1, k2, k3, k4⟩)
          · by_cases hp : i * 8 + j = p
            · left; rw [if_pos hp]; simp [hlt]
            · left; rw [if_neg hp]; exact h
          · by_cases hk : k = j
            · left
              have hp : i * 8 + j = p := by omega
              rw [if_pos hp]; simp [hlt]
            · exact Or.inr ⟨k, by omega, by omega, k3, k4⟩
    · obtain ⟨bits', h1, h2, h3⟩ := ih (j + 1) bits (by omega) hlen
      refine ⟨bits', ?_, h2, fun p => ?_⟩
      · simp only [unmarshalByte, hc, if_false]
        exact h1
      · rw [h3]
        have ht : ¬ bit.val.testBit (7 - j) = true := fun h => hc ((shl_and bit j hj8).mpr h)
        constructor
        · rintro (h | ⟨k, k1, k2, k3, k4⟩)
          · exact Or.inl h
          · exact Or.inr ⟨k, by omega, by omega, k3, k4⟩
        · rintro (h | ⟨k, k1, k2, k3, k4⟩)
          · exact Or.inl h
          · by_cases hk : k = j
            · subst hk; exact absurd k4 ht
            · exact Or.inr ⟨k, by omega, by omega, k3, k4⟩

theorem unmarshalLoop_spec (rest : List Byte) :
    ∀ (i : Nat) (bits : List Bool), (i + rest.length) * 8 ≤ bits.length →
      ∃ bits', unmarshalLoop rest i bits = some bits' ∧ bits'.length = bits.length ∧
        ∀ p : Nat, bits'[p]? = some true ↔ bits[p]? = some true ∨
          ∃ b, i * 8 ≤ p ∧ rest[p / 8 - i]? = some b ∧ b.val.testBit (7 - p % 8) = true := by
  induction rest with
  | nil =>
    intro i bits _
    refine ⟨bits, rfl, rfl, fun p => ?_⟩
    simp
  | cons bit rest ih =>
    intro i bits hlen
    simp only [List.length_cons] at hlen
    obtain ⟨bits1, a1, a2, a3⟩ := unmarshalByte_spec i bit 8 0 bits (by omega) (by omega)
    obtain ⟨bits2, b1, b2, b3⟩ := ih (i + 1) bits1 (by rw [a2]; omega)
    refine ⟨bits2, ?_, ?_, fun p => ?_⟩
    · simp only [unmarshalLoop, a1]
      exact b1
    · rw [b2, a2]
    · rw [b3, a3]
      constructor
      · rintro ((h | ⟨k, -, k2, k3, k4⟩) | ⟨b, c1, c2, c3⟩)
        · exact Or.inl h
        · right
          refine ⟨bit, by omega, ?_, ?_⟩
          · have : p / 8 - i = 0 := by omega
            rw [this]; simp
          · have : p % 8 = k := by omega
            rw [this]; exact k4
        · right
          refine ⟨b, by omega, ?_, c3⟩
          have : p / 8 - i = (p / 8 - (i + 1)) + 1 := by omega
          rw [this]; simpa using c2
      · rintro (h | ⟨b, c1, c2, c3⟩)
        · exact Or.inl (Or.inl h)
        · by_cases hp : p / 8 = i
          · left; right
            have h0 : p / 8 - i = 0 := by omega
            rw [h0] at c2
            have hb : bit = b := by simpa using c2
            subst hb
            exact ⟨p % 8, Nat.zero_le _, by omega, by omega, c3⟩
          · right
            have h1 : p / 8 - i = (p / 8 - (i + 1)) + 1 := by omega
            rw [h1] at c2
            exact ⟨b, by omega, by simpa using c2, c3⟩

theorem unmarshalBinary_eq (bl : BloomFilter) (data : List Byte) :
    ∃ bits, bl.UnmarshalBinary data = some (BloomFilter.mk bits bl.hashfns, none) ∧
      unmarshalLoop data 0 (List.replicate (data.length * 8) false) = some bits ∧
      bits.length = data.length * 8 ∧
      ∀ p : Nat, bits[p]? = bitAt data p := by
  obtain ⟨bits, h1, h2, h3⟩ := unmarshalLoop_spec data 0
    (List.replicate (data.length * 8) false) (by simp)
  rw [List.length_replicate] at h2
  refine ⟨bits, ?_, h1, h2, fun p => ?_⟩
  · simp only [BloomFilter.UnmarshalBinary, h1]
  · by_cases hp : p < bits.length
    · have hd : p / 8 < data.length := by omega
      unfold bitAt
      rw [List.getElem?_eq_getElem hd, Option.map_some']
      apply getElem?_of_true_iff _ _ _ hp
      rw [h3]
      constructor
      · rintro (h | ⟨b, -, c2, c3⟩)
        · exact absurd h (getElem?_replicate_false _ _)
        · rw [Nat.sub_zero, List.getElem?_eq_getElem hd] at c2
          cases c2; exact c3
      · intro h
        exact Or.inr ⟨data[p / 8], Nat.zero_le _, by
          rw [Nat.sub_zero, List.getElem?_eq_getElem hd], h⟩
    · have hd : data.length ≤ p / 8 := by omega
      unfold bitAt
      rw [List.getElem?_eq_none (Nat.le_of_not_lt hp), List.getElem?_eq_none hd]
      rfl

/-! ## `MarshalBinary` -/

theorem orBit_spec (data : List Byte) (i : Nat) (hi : i / 8 < data.length) :
    ∃ data', orBit data i = some data' ∧ data'.length = data.length ∧
      ∀ p : Nat, bitAt data' p = some true ↔ bitAt data p = some true ∨ p = i := by
  refine ⟨data.set (i / 8) (Fin.ofNat (data[i / 8].val ||| (0x80 >>> (i % 8)))), ?_, ?_,
    fun p => ?_⟩
  · simp only [orBit, List.getElem?_eq_getElem hi]
  · rw [List.length_set]
  · unfold bitAt
    rw [List.getElem?_set]
    by_cases hp : i / 8 = p / 8
    · have hp' : p / 8 < data.length := by omega
      have hs : p % 8 < 8 := Nat.mod_lt _ (by decide)
      have e : data[i / 8] = data[p / 8] := by simp only [hp]
      rw [if_pos hp, if_pos hi, Option.map_some', List.getElem?_eq_getElem hp',
        Option.map_some', e, testBit_orByte _ _ _ hs]
      simp only [Option.some.injEq, Bool.or_eq_true, decide_eq_true_eq]
      constructor
      · rintro (h | h)
        · exact Or.inl h
        · right; omega
      · rintro (h | h)
        · exact Or.inl h
        · right; omega
    · rw [if_neg hp]
      constructor
      · exact fun h => Or.inl h
      · rintro (h | h)
        · exact h
        · subst h; exact absurd rfl hp

theorem marshalLoop_spec (rest : List Bool) :
    ∀ (i : Nat) (data : List Byte), i + rest.length ≤ 8 * data.length →
      ∃ data', marshalLoop rest i data = some data' ∧ data'.length = data.length ∧
        ∀ p : Nat, bitAt data' p = some true ↔
          bitAt data p = some true ∨ (i ≤ p ∧ rest[p - i]? = some true) := by
  induction rest with
  | nil =>
    intro i data _
    refine ⟨data, rfl, rfl, fun p => ?_⟩
    simp
  | cons bit rest ih =>
    intro i data hlen
    simp only [List.length_cons] at hlen
    have step : ∀ p : Nat, i ≤ p → ((bit :: rest)[p - i]? = some true ↔
        (p = i ∧ bit = true) ∨ (i + 1 ≤ p ∧ rest[p - (i + 1)]? = some true)) := by
      intro p hp
      by_cases h0 : p = i
      · subst h0
        simp
      · have e : p - i = (p - (i + 1)) + 1 := by omega
        rw [e, List.getElem?_cons_succ]
        constructor
        · exact fun h => Or.inr ⟨by omega, h⟩
        · rintro (⟨h, -⟩ | ⟨-, h⟩)
          · exact absurd h h0
          · exact h
    cases bit with
    | true =>
      obtain ⟨data1, a1, a2, a3⟩ := orBit_spec data i (by omega)
      obtain ⟨data2, b1, b2, b3⟩ := ih (i + 1) data1 (by rw [a2]; omega)
      refine ⟨data2, ?_, by rw [b2, a2], fun p => ?_⟩
      · simp only [marshalLoop, if_true, a1]
        exact b1
      · rw [b3, a3]
        constructor
        · rintro ((h | h) | ⟨h1, h2⟩)
          · exact Or.inl h
          · exact Or.inr ⟨by omega, (step p (by omega)).mpr (Or.inl ⟨h, rfl⟩)⟩
          · exact Or.inr ⟨by omega, (step p (by omega)).mpr (Or.inr ⟨h1, h2⟩)⟩
        · rintro (h | ⟨h1, h2⟩)
          · exact Or.inl (Or.inl h)
          · rcases (step p h1).mp h2 with ⟨h, -⟩ | h
            · exact Or.inl (Or.inr h)
            · exact Or.inr h
    | false =>
      obtain ⟨data2, b1, b2, b3⟩ := ih (i + 1) data (by omega)
      refine ⟨data2, ?_, b2, fun p => ?_⟩
      · simp only [marshalLoop]
        exact b1
      · rw [b3]
        constructor
        · rintro (h | ⟨h1, h2⟩)
          · exact Or.inl h
          · exact Or.inr ⟨by omega, (step p (by omega)).mpr (Or.inr ⟨h1, h2⟩)⟩
        · rintro (h | ⟨h1, h2⟩)
          · exact Or.inl h
          · rcases (step p h1).mp h2 with ⟨-, h⟩ | h
            · exact absurd h (by simp)
            · exact Or.inr h

theorem bitAt_replicate_zero (n p : Nat) :
    ¬ bitAt (List.replicate n (0 : Byte)) p = some true := by
  unfold bitAt
  rw [List.getElem?_replicate]
  split <;> simp

theorem marshalBinary_eq (bl : BloomFilter) :
    ∃ data, bl.MarshalBinary = some (data, none) ∧
      data.length = (bl.bitset.length + 7) / 8 ∧
      ∀ p : Nat, bitAt data p = some true ↔ bl.bitset[p]? = some true := by
  obtain ⟨data, h1, h2, h3⟩ := marshalLoop_spec bl.bitset 0
    (List.replicate ((bl.bitset.length + 7) / 8) 0) (by rw [List.length_replicate]; omega)
  rw [List.length_replicate] at h2
  refine ⟨data, ?_, h2, fun p => ?_⟩
  · simp only [BloomFilter.MarshalBinary, h1]
  · rw [h3]
    constructor
    · rintro (h | ⟨-, h⟩)
      · exact absurd h (bitAt_replicate_zero _ _)
      · simpa using h
    · intro h
      exact Or.inr ⟨Nat.zero_le _, by simpa using h⟩

/-- C5: `MarshalBinary` completes without a panic and returns the `nil`
error with exactly `ceil(N / 8)` bytes (the least `k` with `N ≤ 8 * k`, which
is `(N + 7) / 8`); for every index `i < N` the byte `i / 8` exists and its bit
under the mask `0x80 >> (i % 8)` is set if and only if `bitset[i]` is true. -/
theorem marshalBinary_packing (bl : BloomFilter) :
    ∃ data, bl.MarshalBinary = some (data, none) ∧
      data.length = (bl.bitset.length + 7) / 8 ∧
      (bl.bitset.length ≤ 8 * data.length ∧ 8 * data.length < bl.bitset.length + 8) ∧
      ∀ i : Nat, i < bl.bitset.length →
        ∃ b, data[i / 8]? = some b ∧
          (b.val &&& (0x80 >>> (i % 8)) ≠ 0 ↔ bl.bitset[i]? = some true) := by
  obtain ⟨data, h1, h2, h3⟩ := marshalBinary_eq bl
  refine ⟨data, h1, h2, by omega, fun i hi => ?_⟩
  have hd : i / 8 < data.length := by omega
  refine ⟨data[i / 8], List.getElem?_eq_getElem hd, ?_⟩
  rw [mask_and _ _ (Nat.mod_lt _ (by decide)), ← h3]
  unfold bitAt
  rw [List.getElem?_eq_getElem hd]
  simp

/-- Witness of C5: the three bits `[true, false, true]` marshal to the one
byte `0xA0`. -/
theorem marshalBinary_packing_witness :
    (1 : Nat) < (BloomFilter.mk [true, false, true] []).bitset.length ∧
    ∃ data, (BloomFilter.mk [true, false, true] []).MarshalBinary = some (data, none) ∧
      data.length = 1 ∧
      ∃ b, data[1 / 8]? = some b ∧
        (b.val &&& (0x80 >>> (1 % 8)) ≠ 0 ↔
          (BloomFilter.mk [true, false, true] []).bitset[1]? = some true) := by
  obtain ⟨data, h1, h2, -, h4⟩ := marshalBinary_packing (BloomFilter.mk [true, false, true] [])
  exact ⟨by decide, data, h1, h2, h4 1 (by decide)⟩

/-- C6: `UnmarshalBinary data` completes without a panic on every filter and
every byte sequence and returns the `nil` error; the new bitset has length
`len(data) * 8`, its bit `8 * i + j` (`j < 8`) is the `j`-th most significant
bit of `data[i]`, the hashers are unchanged, and the outcome is the same
whatever bitset the filter held before. -/
theorem unmarshalBinary_unpacking (bl : BloomFilter) (data : List Byte) :
    ∃ bits, bl.UnmarshalBinary data = some (BloomFilter.mk bits bl.hashfns, none) ∧
      bits.length = data.length * 8 ∧
      (∀ i j : Nat, j < 8 →
        bits[8 * i + j]? = data[i]?.map (fun b => b.val.testBit (7 - j))) ∧
      ∀ old : List Bool,
        (BloomFilter.mk old bl.hashfns).UnmarshalBinary data =
          some (BloomFilter.mk bits bl.hashfns, none) := by
  obtain ⟨bits, h1, h2, h3, h4⟩ := unmarshalBinary_eq bl data
  refine ⟨bits, h1, h3, fun i j hj => ?_, fun old => ?_⟩
  · rw [h4]
    unfold bitAt
    have e1 : (8 * i + j) / 8 = i := by omega
    have e2 : (8 * i + j) % 8 = j := by omega
    rw [e1, e2]
  · simp only [BloomFilter.UnmarshalBinary, h2]

/-- Witness of C6: unmarshalling the byte `0xA0` into a filter whose bitset
was all ones. -/
theorem unmarshalBinary_unpacking_witness :
    (2 : Nat) < 8 ∧
    ∃ bits, (BloomFilter.mk [true, true, true] basicHashfns).UnmarshalBinary [0xA0] =
        some (BloomFilter.mk bits basicHashfns, none) ∧
      bits.length = 8 ∧ bits[8 * 0 + 2]? = some true := by
  obtain ⟨bits, h1, h2, h3, -⟩ :=
    unmarshalBinary_unpacking (BloomFilter.mk [true, true, true] basicHashfns) [0xA0]
  exact ⟨by decide, bits, h1, h2, by rw [h3 0 2 (by decide)]; decide⟩
/-- C1 (amended): on a filter built by `Custom size hashfns` (`Basic size` is
`Custom size basicHashfns`) with at least one hasher, every hasher in its
reset state, and a non-empty bitset, `Insert x` followed by any sequence of
further `Insert`s completes and `Search x` then returns `true`. -/
theorem no_false_negatives (size : Int) (hashfns : List Hash64) (bl : BloomFilter)
    (x : List Byte) (ys : List (List Byte))
    (hbuilt : Custom size hashfns = some bl) (hh : hashfns ≠ [])
    (hreset : ∀ h ∈ hashfns, h.written = []) (hne : bl.bitset ≠ []) :
    ∃ bl1 bl2 bl3, bl.Insert x = some bl1 ∧ bl1.insertAll ys = some bl2 ∧
      bl2.Search x = some (true, bl3) := by
  have hf : bl.hashfns = hashfns := by
    unfold Custom at hbuilt
    simp only at hbuilt
    split at hbuilt
    · exact absurd hbuilt (by simp)
    · cases hbuilt; rfl
  exact search_after_insert bl x ys hne (hf ▸ hh) (hf ▸ hreset)

/-- Witness of C1: the filter `Basic 10`, "Hello, world!" and one more insert. -/
theorem no_false_negatives_witness :
    Basic 10 = some (BloomFilter.mk (List.replicate 12 false) basicHashfns) ∧
    ∃ bl1 bl2 bl3,
      (BloomFilter.mk (List.replicate 12 false) basicHashfns).Insert helloWorld = some bl1 ∧
      bl1.insertAll [[97]] = some bl2 ∧ bl2.Search helloWorld = some (true, bl3) :=
  ⟨rfl, no_false_negatives 10 basicHashfns
    (BloomFilter.mk (List.replicate 12 false) basicHashfns) helloWorld [[97]] rfl
    (by simp [basicHashfns]) (by simp [basicHashfns]) (by simp)⟩

/-- C1 as stated fails: a hasher handed to `Custom` after the byte `a` was
written into it makes the first `Insert` mark the digest of `a ++ x`, and the
following `Search x` looks at the digest of `x`. -/
theorem false_negative_unreset_hasher :
    ∃ bl bl1 bl2, Custom 8 [{ digest := fnv64, written := [97] }] = some bl ∧
      bl.bitset ≠ [] ∧ bl.Insert helloWorld = some bl1 ∧
      bl1.Search helloWorld = some (false, bl2) :=
  ⟨BloomFilter.mk (List.replicate 8 false) [{ digest := fnv64, written := [97] }], _, _,
    rfl, by simp, rfl, rfl⟩

/-- C2 (evaluation at the failing input): on `Basic 100` after
`Insert "Hello, world!"` (bits 14, 74, 76, 92 of 104 set), `Search "a"`
returns `true` although of the four bits indexed by the digests of `a`
(102, 76, 32, 69) only bit 76 is set. -/
theorem search_true_with_unset_bits :
    ∃ bl bl1 bl2, Basic 100 = some bl ∧ bl.Insert helloWorld = some bl1 ∧
      (bl1.sums [97]).1.map (fun s => s % bl1.bitset.length) = [102, 76, 32, 69] ∧
      bl1.bitset[102]? = some false ∧ bl1.bitset[76]? = some true ∧
      bl1.bitset[32]? = some false ∧ bl1.bitset[69]? = some false ∧
      bl1.Search [97] = some (true, bl2) :=
  ⟨BloomFilter.mk (List.replicate 104 false) basicHashfns, _, _,
    rfl, rfl, by decide, by decide, by decide, by decide, by decide, rfl⟩

/-- C3 (evaluation at the failing input): a requested size of 10 gives a
bitset of length 12, both with `Custom` and with `Basic`. -/
theorem custom_ten_has_length_twelve (hashfns : List Hash64) :
    (Custom 10 hashfns).map (fun bl => bl.bitset.length) = some 12 ∧
    (Basic 10).map (fun bl => bl.bitset.length) = some 12 :=
  ⟨rfl, rfl⟩

/-- C4 (evaluation at the failing input): on `Basic 10` after
`Insert "Hello, world!"` the string dump has 12 characters before
marshalling and 16 after unmarshalling the marshalled bytes. -/
theorem roundtrip_basic_ten_differs :
    ∃ bl bl1 bl2, Basic 10 = some bl ∧ bl.Insert helloWorld = some bl1 ∧
      bl1.MarshalBinary = some ([2, 160], none) ∧
      bl1.UnmarshalBinary [2, 160] = some (bl2, none) ∧
      bl1.String = "000000101010" ∧ bl2.String = "0000001010100000" :=
  ⟨BloomFilter.mk (List.replicate 12 false) basicHashfns, _, _,
    rfl, rfl, by decide, rfl, by decide, by decide⟩

/-- C7 (evaluation at the failing input): the bitset of `Basic 10` has
length 12, which is not a multiple of 8. -/
theorem basic_ten_length_not_multiple_of_eight :
    ∃ bl, Basic 10 = some bl ∧ bl.bitset.length = 12 ∧ bl.bitset.length % 8 = 4 :=
  ⟨BloomFilter.mk (List.replicate 12 false) basicHashfns, rfl, rfl, rfl⟩

/-! ## Monotonicity, totality and the effect of `Insert` -/

/-- C8: if bit `i` is true before a call of `Insert`, `Search`, `String` or
`MarshalBinary` (any call but `UnmarshalBinary`), the call completes and bit
`i` is still true after it. -/
theorem set_bits_stay_set (bl : BloomFilter) (c : Call) (i : Nat)
    (hc : ∀ data, c ≠ Call.unmarshalBinary data)
    (hi : bl.bitset[i]? = some true) :
    ∃ bl', bl.step c = some bl' ∧ bl'.bitset[i]? = some true := by
  have hne : bl.bitset ≠ [] := by
    intro h
    rw [h] at hi
    simp at hi
  cases c with
  | insert data =>
    refine ⟨_, insert_eq bl data hne, ?_⟩
    exact (getElem?_markAll _ _ _).mpr (Or.inl hi)
  | search data =>
    refine ⟨BloomFilter.mk bl.bitset (bl.hashfns.map (fun h => (h.Write data).Reset)), ?_, hi⟩
    simp only [BloomFilter.step, search_eq bl data hne, Option.map_some']
  | string => exact ⟨bl, rfl, hi⟩
  | marshalBinary =>
    obtain ⟨data, h1, -⟩ := marshalBinary_eq bl
    refine ⟨bl, ?_, hi⟩
    simp only [BloomFilter.step, h1, Option.map_some']
  | unmarshalBinary data => exact absurd rfl (hc data)

/-- Witness of C8: bit 1 of a three-bit filter survives an `Insert`. -/
theorem set_bits_stay_set_witness :
    (BloomFilter.mk [false, true, false] basicHashfns).bitset[1]? = some true ∧
    ∃ bl', (BloomFilter.mk [false, true, false] basicHashfns).step (Call.insert helloWorld) =
        some bl' ∧ bl'.bitset[1]? = some true :=
  ⟨rfl, set_bits_stay_set (BloomFilter.mk [false, true, false] basicHashfns)
    (Call.insert helloWorld) 1 (fun _ h => Call.noConfusion h) rfl⟩

theorem custom_hashfns (size : Int) (hashfns : List Hash64) (bl : BloomFilter)
    (hbuilt : Custom size hashfns = some bl) : bl.hashfns = hashfns := by
  unfold Custom at hbuilt
  simp only at hbuilt
  split at hbuilt
  · exact absurd hbuilt (by simp)
  · cases hbuilt; rfl

theorem custom_bitset_ne_nil (size : Int) (hashfns : List Hash64) (bl : BloomFilter)
    (hbuilt : Custom size hashfns = some bl) (hpos : 0 < size) (hint : size < 2 ^ 63) :
    bl.bitset ≠ [] := by
  unfold Custom at hbuilt
  simp only at hbuilt
  split at hbuilt
  · exact absurd hbuilt (by simp)
  · rename_i hw
    cases hbuilt
    simp only [ne_eq, List.replicate_eq_nil_iff]
    have ht : Int.tmod size 8 = size % 8 := Int.tmod_eq_emod (le_of_lt hpos) (by decide)
    rw [ht] at hw ⊢
    unfold wrapInt at hw ⊢
    omega

/-- The state-level form of totality: every call completes on a filter
whose bitset is non-empty or that has no hasher. -/
theorem calls_complete (bl : BloomFilter) (data : List Byte)
    (hok : bl.bitset ≠ [] ∨ bl.hashfns = []) :
    (∃ bl', bl.Insert data = some bl') ∧ (∃ r, bl.Search data = some r) ∧
      (∃ d, bl.MarshalBinary = some (d, none)) ∧
      (∃ bl', bl.UnmarshalBinary data = some (bl', none)) := by
  obtain ⟨d, hd, -⟩ := marshalBinary_eq bl
  obtain ⟨bits, hb, -⟩ := unmarshalBinary_eq bl data
  refine ⟨?_, ?_, ⟨d, hd⟩, ⟨_, hb⟩⟩
  · rcases hok with h | h
    · exact ⟨_, insert_eq bl data h⟩
    · refine ⟨bl, ?_⟩
      cases bl with
      | mk b hs =>
        simp only at h
        subst h
        rfl
  · rcases hok with h | h
    · exact ⟨_, search_eq bl data h⟩
    · refine ⟨(false, bl), ?_⟩
      cases bl with
      | mk b hs =>
        simp only at h
        subst h
        rfl

/-- C9 (amended): in every state of a filter (right after `Basic` or `Custom`
or after any public operations) in which the bitset is non-empty or there is
no hasher, `Insert` and `Search` complete without a panic for every byte
sequence; `String`, `MarshalBinary` and `UnmarshalBinary` complete in every
state, the last two with the `nil` error; and the bitset of a filter just
returned by `Custom size hashfns` (`Basic size` is `Custom size basicHashfns`)
with a Go `int` `size ≥ 1` is non-empty. -/
theorem operations_complete (bl : BloomFilter) (data : List Byte) :
    (bl.bitset ≠ [] ∨ bl.hashfns = [] →
      (∃ bl', bl.Insert data = some bl') ∧ ∃ r, bl.Search data = some r) ∧
    (∃ bl', bl.step Call.string = some bl') ∧
    (∃ d, bl.MarshalBinary = some (d, none)) ∧
    (∃ bl', bl.UnmarshalBinary data = some (bl', none)) ∧
    ∀ (size : Int) (hashfns : List Hash64), 0 < size → size < 2 ^ 63 →
      Custom size hashfns = some bl → bl.bitset ≠ [] := by
  obtain ⟨d, hd, -⟩ := marshalBinary_eq bl
  obtain ⟨bits, hb, -⟩ := unmarshalBinary_eq bl data
  refine ⟨fun hok => ?_, ⟨bl, rfl⟩, ⟨d, hd⟩, ⟨_, hb⟩, fun size hashfns hpos hint hbuilt =>
    custom_bitset_ne_nil size hashfns bl hbuilt hpos hint⟩
  obtain ⟨h1, h2, -⟩ := calls_complete bl data hok
  exact ⟨h1, h2⟩

/-- Witness of C9 (amended): a two-bit filter with the four hashers of
`Basic`, as `Basic 1` returns it, and the empty byte sequence. -/
theorem operations_complete_witness :
    ((BloomFilter.mk [false, false] basicHashfns).bitset ≠ [] ∨
      (BloomFilter.mk [false, false] basicHashfns).hashfns = []) ∧
    ((0 : Int) < 1 ∧ (1 : Int) < 2 ^ 63 ∧
      Custom 1 basicHashfns = some (BloomFilter.mk [false, false] basicHashfns)) ∧
    (∃ bl', (BloomFilter.mk [false, false] basicHashfns).Insert [] = some bl') ∧
    (∃ r, (BloomFilter.mk [false, false] basicHashfns).Search [] = some r) ∧
    (∃ d, (BloomFilter.mk [false, false] basicHashfns).MarshalBinary = some (d, none)) ∧
    (∃ bl', (BloomFilter.mk [false, false] basicHashfns).UnmarshalBinary [] = some (bl', none)) := by
  obtain ⟨h1, -, h3, h4, -⟩ :=
    operations_complete (BloomFilter.mk [false, false] basicHashfns) []
  have hok : (BloomFilter.mk [false, false] basicHashfns).bitset ≠ [] ∨
      (BloomFilter.mk [false, false] basicHashfns).hashfns = [] := Or.inl (by simp)
  exact ⟨hok, ⟨by decide, by decide, rfl⟩, (h1 hok).1, (h1 hok).2, h3, h4⟩

/-- C9 as stated fails: `Basic 0` has an empty bitset and four hashers, and
both `Insert` and `Search` panic on it with a division by zero in `index`;
the same happens on `Basic 8` after `UnmarshalBinary` of the empty byte
sequence, which leaves an empty bitset. -/
theorem insert_search_panic_on_empty_bitset :
    (∃ bl, Basic 0 = some bl ∧ bl.bitset = [] ∧ bl.index 0 = none ∧
      bl.Insert [] = none ∧ bl.Search [] = none) ∧
    ∃ bl bl', Basic 8 = some bl ∧ bl.UnmarshalBinary [] = some (bl', none) ∧
      bl'.bitset = [] ∧ bl'.Insert helloWorld = none ∧ bl'.Search helloWorld = none :=
  ⟨⟨BloomFilter.mk [] basicHashfns, rfl, rfl, rfl, rfl, rfl⟩,
    BloomFilter.mk (List.replicate 8 false) basicHashfns, _, rfl, rfl, rfl, rfl, rfl⟩

/-- What `Insert x` does on a non-empty bitset of length `N`, whatever state
the hashers are in: it completes, keeps the length, and sets exactly the
positions `d % N` for the digests `d` the hashers return after `x` was
written into them. -/
theorem insert_marks_sums (bl : BloomFilter) (x : List Byte) (hne : bl.bitset ≠ []) :
    ∃ bl', bl.Insert x = some bl' ∧ bl'.bitset.length = bl.bitset.length ∧
      ∀ j : Nat, bl'.bitset[j]? = some true ↔
        bl.bitset[j]? = some true ∨
          ∃ h ∈ bl.hashfns, j = (h.Write x).Sum64 % bl.bitset.length := by
  have hpos : 0 < bl.bitset.length := List.length_pos.mpr hne
  refine ⟨_, insert_eq bl x hne, length_markAll _ _, fun j => ?_⟩
  rw [getElem?_markAll]
  constructor
  · rintro (h | ⟨-, s, hs, hj⟩)
    · exact Or.inl h
    · obtain ⟨g, hg, rfl⟩ := List.mem_map.mp hs
      exact Or.inr ⟨g, hg, hj⟩
  · rintro (h | ⟨g, hg, hj⟩)
    · exact Or.inl h
    · refine Or.inr ⟨?_, (g.Write x).Sum64, List.mem_map.mpr ⟨g, hg, rfl⟩, hj⟩
      rw [hj]; exact Nat.mod_lt _ hpos

/-- C10 (amended): on a filter with a non-empty bitset of length `N` whose
hashers are all in their reset state, `Insert x` completes, keeps the length,
and afterwards bit `j` is true if and only if it was true before or
`j = (h.digest x % 2 ^ 64) % N` for some hasher `h` of the filter; on a filter
with no bit set the set bits are therefore exactly these positions; and
`Basic 100` after `Insert "Hello, world!"` prints a string of 104 characters
with `1` exactly at 14, 74, 76 and 92. -/
theorem insert_sets_digest_positions (bl : BloomFilter) (x : List Byte)
    (hne : bl.bitset ≠ []) (hreset : ∀ h ∈ bl.hashfns, h.written = []) :
    (∃ bl', bl.Insert x = some bl' ∧ bl'.bitset.length = bl.bitset.length ∧
      (∀ j : Nat, bl'.bitset[j]? = some true ↔
        bl.bitset[j]? = some true ∨
          ∃ h ∈ bl.hashfns, j = (h.digest x % 2 ^ 64) % bl.bitset.length) ∧
      ((∀ j : Nat, ¬ bl.bitset[j]? = some true) →
        ∀ j : Nat, bl'.bitset[j]? = some true ↔
          ∃ h ∈ bl.hashfns, j = (h.digest x % 2 ^ 64) % bl.bitset.length)) ∧
    (∃ b b', Basic 100 = some b ∧ b.Insert helloWorld = some b' ∧
      b'.String =
        "00000000000000100000000000000000000000000000000000000000000000000000000000101000000000000000100000000000" ∧
      b'.String.length = 104 ∧
      (List.range 104).filter (fun i => b'.String.data[i]? = some '1') = [14, 74, 76, 92]) := by
  obtain ⟨bl', h1, h2, h3⟩ := insert_marks_sums bl x hne
  have hd : ∀ h ∈ bl.hashfns, (h.Write x).Sum64 = h.digest x % 2 ^ 64 := by
    intro h hh
    simp only [Hash64.Write, Hash64.Sum64, hreset h hh, List.nil_append]
  have key : ∀ j : Nat, bl'.bitset[j]? = some true ↔
      bl.bitset[j]? = some true ∨
        ∃ h ∈ bl.hashfns, j = (h.digest x % 2 ^ 64) % bl.bitset.length := by
    intro j
    rw [h3]
    constructor
    · rintro (h | ⟨g, hg, hj⟩)
      · exact Or.inl h
      · exact Or.inr ⟨g, hg, by rw [hj, hd g hg]⟩
    · rintro (h | ⟨g, hg, hj⟩)
      · exact Or.inl h
      · exact Or.inr ⟨g, hg, by rw [hj, hd g hg]⟩
  refine ⟨⟨bl', h1, h2, key, fun hfalse j => ?_⟩, ?_⟩
  · rw [key]
    constructor
    · rintro (h | h)
      · exact absurd h (hfalse j)
      · exact h
    · exact fun h => Or.inr h
  · exact ⟨BloomFilter.mk (List.replicate 104 false) basicHashfns, _, rfl, rfl,
      by decide, by decide, by decide⟩

/-- Witness of C10 (amended): `Insert "Hello, world!"` on the fresh filter
`Basic 100`. -/
theorem insert_sets_digest_positions_witness :
    ((BloomFilter.mk (List.replicate 104 false) basicHashfns).bitset ≠ [] ∧
      ∀ h ∈ (BloomFilter.mk (List.replicate 104 false) basicHashfns).hashfns,
        h.written = []) ∧
    ∃ bl', (BloomFilter.mk (List.replicate 104 false) basicHashfns).Insert helloWorld =
        some bl' ∧ bl'.bitset.length = 104 :=
  ⟨⟨by simp, by simp [basicHashfns]⟩, by
    obtain ⟨⟨bl', h1, h2, -⟩, -⟩ := insert_sets_digest_positions
      (BloomFilter.mk (List.replicate 104 false) basicHashfns) helloWorld (by simp)
      (by simp [basicHashfns])
    exact ⟨bl', h1, by simpa using h2⟩⟩

/-- C10 as stated fails: with a hasher handed to `Custom` after the byte `a`
was written into it, `Insert "Hello, world!"` on the fresh eight-bit filter
sets bit 3 (the digest of "aHello, world!" modulo 8) and leaves bit 6 (the
digest of "Hello, world!" modulo 8) unset. -/
theorem insert_marks_digest_of_pending_bytes :
    ∃ bl bl', Custom 8 [{ digest := fnv64, written := [97] }] = some bl ∧
      bl.bitset = List.replicate 8 false ∧ bl.Insert helloWorld = some bl' ∧
      (fnv64 helloWorld % 2 ^ 64) % 8 = 6 ∧
      (fnv64 ([97] ++ helloWorld) % 2 ^ 64) % 8 = 3 ∧
      bl'.bitset = [false, false, false, true, false, false, false, false] :=
  ⟨BloomFilter.mk (List.replicate 8 false) [{ digest := fnv64, written := [97] }], _,
    rfl, rfl, rfl, by decide, by decide, by decide⟩

/-! ## Shape of the filter -/

theorem insertLoop_shape (ss : List Nat) :
    ∀ bl bl' : BloomFilter, BloomFilter.insertLoop bl ss = some bl' →
      bl'.hashfns = bl.hashfns ∧ bl'.bitset.length = bl.bitset.length := by
  induction ss with
  | nil =>
    intro bl bl' h
    cases h
    exact ⟨rfl, rfl⟩
  | cons s t ih =>
    intro bl bl' h
    simp only [BloomFilter.insertLoop] at h
    split at h
    · exact absurd h (by simp)
    · rename_i i hi
      split at h
      · exact absurd h (by simp)
      · rename_i bits hb
        obtain ⟨h1, h2⟩ := ih _ _ h
        refine ⟨h1, ?_⟩
        rw [h2]
        unfold setBit at hb
        split at hb
        · cases hb
          simp
        · exact absurd hb (by simp)

theorem insert_shape (bl bl' : BloomFilter) (x : List Byte) (h : bl.Insert x = some bl') :
    bl'.hashfns = bl.hashfns.map (fun g => (g.Write x).Reset) ∧
      bl'.bitset.length = bl.bitset.length := by
  unfold BloomFilter.Insert at h
  simp only [sums_fst, sums_snd] at h
  exact insertLoop_shape _ _ _ h

theorem search_shape (bl bl' : BloomFilter) (x : List Byte) (pos : Bool)
    (h : bl.Search x = some (pos, bl')) :
    bl'.hashfns = bl.hashfns.map (fun g => (g.Write x).Reset) ∧ bl'.bitset = bl.bitset := by
  unfold BloomFilter.Search at h
  simp only [sums_fst, sums_snd] at h
  split at h
  · exact absurd h (by simp)
  · cases h
    exact ⟨rfl, rfl⟩

theorem map_digest_reset (hs : List Hash64) (x : List Byte) :
    (hs.map (fun g => (g.Write x).Reset)).map Hash64.digest = hs.map Hash64.digest := by
  rw [List.map_map]
  rfl

/-- The effect of one call on the shape of the filter. -/
theorem step_shape (bl bl' : BloomFilter) (c : Call) (h : bl.step c = some bl') :
    bl'.hashfns.map Hash64.digest = bl.hashfns.map Hash64.digest ∧
      ((∀ g ∈ bl.hashfns, g.written = []) → bl'.hashfns = bl.hashfns) ∧
      ((∀ d, c ≠ Call.unmarshalBinary d) → bl'.bitset.length = bl.bitset.length) := by
  cases c with
  | insert data =>
    obtain ⟨h1, h2⟩ := insert_shape bl bl' data h
    refine ⟨by rw [h1, map_digest_reset], fun hr => ?_, fun _ => h2⟩
    rw [h1, map_reset_of_reset _ _ hr]
  | search data =>
    simp only [BloomFilter.step, Option.map_eq_some'] at h
    obtain ⟨⟨pos, r⟩, hs, hr⟩ := h
    simp only at hr
    rw [← hr]
    obtain ⟨h1, h2⟩ := search_shape bl r data pos hs
    refine ⟨by rw [h1, map_digest_reset], fun hr => ?_, fun _ => by rw [h2]⟩
    rw [h1, map_reset_of_reset _ _ hr]
  | string =>
    cases h
    exact ⟨rfl, fun _ => rfl, fun _ => rfl⟩
  | marshalBinary =>
    simp only [BloomFilter.step, Option.map_eq_some'] at h
    obtain ⟨_, -, hr⟩ := h
    subst hr
    exact ⟨rfl, fun _ => rfl, fun _ => rfl⟩
  | unmarshalBinary data =>
    obtain ⟨bits, hb, -⟩ := unmarshalBinary_eq bl data
    simp only [BloomFilter.step, hb, Option.map_some', Option.some.injEq] at h
    subst h
    exact ⟨rfl, fun _ => rfl, fun hd => absurd rfl (hd data)⟩

theorem run_shape (cs : List Call) :
    ∀ bl bl' : BloomFilter, bl.run cs = some bl' →
      bl'.hashfns.map Hash64.digest = bl.hashfns.map Hash64.digest ∧
      ((∀ g ∈ bl.hashfns, g.written = []) → bl'.hashfns = bl.hashfns) ∧
      ((∀ c ∈ cs, ∀ d, c ≠ Call.unmarshalBinary d) →
        bl'.bitset.length = bl.bitset.length) := by
  induction cs with
  | nil =>
    intro bl bl' h
    cases h
    exact ⟨rfl, fun _ => rfl, fun _ => rfl⟩
  | cons c cs ih =>
    intro bl bl' h
    simp only [BloomFilter.run] at h
    split at h
    · exact absurd h (by simp)
    · rename_i bl1 h1
      obtain ⟨a1, a2, a3⟩ := step_shape bl bl1 c h1
      obtain ⟨b1, b2, b3⟩ := ih bl1 bl' h
      refine ⟨b1.trans a1, fun hr => ?_, fun hc => ?_⟩
      · have e := a2 hr
        rw [b2 (by rw [e]; exact hr), e]
      · rw [b3 (fun c' hc' => hc c' (List.mem_cons_of_mem _ hc')),
          a3 (hc c (List.mem_cons_self _ _))]

theorem run_complete (cs : List Call) :
    ∀ bl : BloomFilter, bl.bitset ≠ [] → (∀ c ∈ cs, ∀ d, c ≠ Call.unmarshalBinary d) →
      ∃ bl', bl.run cs = some bl' := by
  induction cs with
  | nil => exact fun bl _ _ => ⟨bl, rfl⟩
  | cons c cs ih =>
    intro bl hne hc
    have hc0 := hc c (List.mem_cons_self _ _)
    have hstep : ∃ bl1, bl.step c = some bl1 := by
      cases c with
      | insert data => exact (calls_complete bl data (Or.inl hne)).1
      | search data =>
        obtain ⟨r, hr⟩ := (calls_complete bl data (Or.inl hne)).2.1
        exact ⟨r.2, by simp only [BloomFilter.step, hr, Option.map_some']⟩
      | string => exact ⟨bl, rfl⟩
      | marshalBinary =>
        obtain ⟨d, hd⟩ := (calls_complete bl [] (Or.inl hne)).2.2.1
        exact ⟨bl, by simp only [BloomFilter.step, hd, Option.map_some']⟩
      | unmarshalBinary data => exact absurd rfl (hc0 data)
    obtain ⟨bl1, h1⟩ := hstep
    have hlen := (step_shape bl bl1 c h1).2.2 hc0
    have hne1 : bl1.bitset ≠ [] := by
      intro h
      rw [h] at hlen
      exact hne (List.length_eq_zero.mp hlen.symm)
    obtain ⟨bl', h'⟩ := ih bl1 hne1 (fun c' hc' => hc c' (List.mem_cons_of_mem _ hc'))
    exact ⟨bl', by simp only [BloomFilter.run, h1]; exact h'⟩

/-- C11 (amended): a sequence of `Insert`, `Search`, `String` and
`MarshalBinary` calls (no `UnmarshalBinary`) on a filter with a non-empty
bitset completes and leaves the length of the bitset as it was; whatever the
calls of a completed sequence are, the hash functions of the filter are the
same afterwards, in number, order and digest function (and the hashers are
equal as states when they were all reset at the start); `UnmarshalBinary data`
sets the length of the bitset to `len(data) * 8`. -/
theorem shape_is_kept (bl : BloomFilter) (cs : List Call) :
    ((∀ c ∈ cs, ∀ d, c ≠ Call.unmarshalBinary d) → bl.bitset ≠ [] →
      ∃ bl', bl.run cs = some bl' ∧ bl'.bitset.length = bl.bitset.length) ∧
    (∀ bl', bl.run cs = some bl' →
      bl'.hashfns.map Hash64.digest = bl.hashfns.map Hash64.digest ∧
      ((∀ g ∈ bl.hashfns, g.written = []) → bl'.hashfns = bl.hashfns) ∧
      ((∀ c ∈ cs, ∀ d, c ≠ Call.unmarshalBinary d) →
        bl'.bitset.length = bl.bitset.length)) ∧
    (∀ data, ∃ bl', bl.step (Call.unmarshalBinary data) = some bl' ∧
      bl'.bitset.length = data.length * 8 ∧ bl'.hashfns = bl.hashfns) := by
  refine ⟨fun hc hne => ?_, fun bl' h => run_shape cs bl bl' h, fun data => ?_⟩
  · obtain ⟨bl', h⟩ := run_complete cs bl hne hc
    exact ⟨bl', h, (run_shape cs bl bl' h).2.2 hc⟩
  · obtain ⟨bits, hb, -, hl, -⟩ := unmarshalBinary_eq bl data
    exact ⟨BloomFilter.mk bits bl.hashfns,
      by simp only [BloomFilter.step, hb, Option.map_some'], hl, rfl⟩

/-- Witness of C11 (amended): `Insert`, `Search`, `String`, `MarshalBinary` on
the filter `Basic 8`. -/
theorem shape_is_kept_witness :
    (BloomFilter.mk (List.replicate 8 false) basicHashfns).bitset ≠ [] ∧
    ∃ bl', (BloomFilter.mk (List.replicate 8 false) basicHashfns).run
        [Call.insert helloWorld, Call.search [97], Call.string, Call.marshalBinary] =
          some bl' ∧ bl'.bitset.length = 8 ∧ bl'.hashfns = basicHashfns := by
  obtain ⟨h1, h2, -⟩ := shape_is_kept (BloomFilter.mk (List.replicate 8 false) basicHashfns)
    [Call.insert helloWorld, Call.search [97], Call.string, Call.marshalBinary]
  obtain ⟨bl', h3, h4⟩ := h1 (by simp) (by simp)
  exact ⟨by simp, bl', h3, by simpa using h4,
    (h2 bl' h3).2.1 (by simp [basicHashfns])⟩

/-- C11 as stated fails: `UnmarshalBinary` of two bytes turns the 8 bits of
`Basic 8` into 16 bits. -/
theorem unmarshal_changes_length :
    ∃ bl bl', Basic 8 = some bl ∧ bl.bitset.length = 8 ∧
      bl.run [Call.unmarshalBinary [0, 0]] = some bl' ∧ bl'.bitset.length = 16 :=
  ⟨BloomFilter.mk (List.replicate 8 false) basicHashfns, _, rfl, rfl, rfl, rfl⟩

/-! ## Fresh filters, `String` and sizes -/

theorem custom_bitset (size : Int) (hashfns : List Hash64) (bl : BloomFilter)
    (hbuilt : Custom size hashfns = some bl) :
    bl.bitset = List.replicate (wrapInt (size + Int.tmod size 8)).toNat false := by
  unfold Custom at hbuilt
  simp only at hbuilt
  split at hbuilt
  · exact absurd hbuilt (by simp)
  · cases hbuilt; rfl

theorem search_false_of_all_false (bl : BloomFilter) (x : List Byte) (hne : bl.bitset ≠ [])
    (hall : ∀ b ∈ bl.bitset, b = false) :
    bl.Search x = some (false,
      BloomFilter.mk bl.bitset (bl.hashfns.map (fun h => (h.Write x).Reset))) := by
  rw [search_eq bl x hne]
  have : (bl.hashfns.map (fun h => (h.Write x).Sum64)).any
      (fun s => bl.bitset[s % bl.bitset.length]? == some true) = false := by
    rw [List.any_eq_false]
    intro s _ hs
    rw [beq_iff_eq] at hs
    have hm := List.getElem?_mem hs
    exact absurd (hall true hm) (by simp)
  rw [this]

/-- C12: in a filter returned by `Custom size hashfns` (`Basic size` is
`Custom size basicHashfns`) with a non-empty bitset every bit is false, and
`Search x` completes and returns `false` for every byte sequence `x`. -/
theorem fresh_filter_is_empty (size : Int) (hashfns : List Hash64) (bl : BloomFilter)
    (x : List Byte) (hbuilt : Custom size hashfns = some bl) (hne : bl.bitset ≠ []) :
    (∀ b ∈ bl.bitset, b = false) ∧
      (∀ i : Nat, i < bl.bitset.length → bl.bitset[i]? = some false) ∧
      ∃ bl', bl.Search x = some (false, bl') := by
  have hb := custom_bitset size hashfns bl hbuilt
  have hall : ∀ b ∈ bl.bitset, b = false := by
    intro b hmem
    rw [hb] at hmem
    exact (List.mem_replicate.mp hmem).2
  refine ⟨hall, fun i hi => ?_, _, search_false_of_all_false bl x hne hall⟩
  rw [List.getElem?_eq_getElem hi]
  exact congrArg some (hall _ (List.getElem_mem hi))

/-- Witness of C12: `Basic 10` and "Hello, world!". -/
theorem fresh_filter_is_empty_witness :
    (Custom 10 basicHashfns = some (BloomFilter.mk (List.replicate 12 false) basicHashfns) ∧
      (BloomFilter.mk (List.replicate 12 false) basicHashfns).bitset ≠ []) ∧
    ∃ bl', (BloomFilter.mk (List.replicate 12 false) basicHashfns).Search helloWorld =
      some (false, bl') :=
  ⟨⟨rfl, by simp⟩,
    (fresh_filter_is_empty 10 basicHashfns
      (BloomFilter.mk (List.replicate 12 false) basicHashfns) helloWorld rfl (by simp)).2.2⟩

theorem foldl_push_data (f : Bool → Char) (l : List Bool) :
    ∀ acc : String, (l.foldl (fun sb bit => sb.push (f bit)) acc).data = acc.data ++ l.map f := by
  induction l with
  | nil => intro acc; simp
  | cons b t ih =>
    intro acc
    rw [List.foldl_cons, ih]
    simp [String.push]

/-- C13: `String` returns exactly `N` characters, the `i`-th being `1` when
bit `i` is set and `0` otherwise, in index order, and the call leaves the
filter as it was. -/
theorem string_format (bl : BloomFilter) :
    bl.String.data = bl.bitset.map (fun bit => if bit then '1' else '0') ∧
      bl.String.length = bl.bitset.length ∧
      (∀ i : Nat, bl.String.data[i]? =
        bl.bitset[i]?.map (fun bit => if bit then '1' else '0')) ∧
      bl.step Call.string = some bl := by
  have h : bl.String.data = bl.bitset.map (fun bit => if bit then '1' else '0') := by
    unfold BloomFilter.String
    rw [foldl_push_data (fun bit => if bit then '1' else '0')]
    rfl
  refine ⟨h, ?_, fun i => ?_, rfl⟩
  · rw [String.length, h, List.length_map]
  · rw [h, List.getElem?_map]

/-- C14 (amended): for a `size ≥ 0` that is a multiple of 8 (0 included) and
not above `maxAlloc`, the largest length `make` accepts, `Custom size hashfns`
and `Basic size` complete with a bitset of length exactly `size`. -/
theorem exact_multiples_are_kept (size : Int) (hashfns : List Hash64)
    (h0 : 0 ≤ size) (hmax : size ≤ maxAlloc) (h8 : size % 8 = 0) :
    (∃ bl, Custom size hashfns = some bl ∧ (bl.bitset.length : Int) = size) ∧
      ∃ bl, Basic size = some bl ∧ (bl.bitset.length : Int) = size := by
  have hint : size < 2 ^ 63 := by
    have : (maxAlloc : Int) = 2 ^ 48 := rfl
    omega
  have ht : Int.tmod size 8 = 0 := by
    rw [Int.tmod_eq_emod h0 (by decide)]; exact h8
  have hw : wrapInt (size + Int.tmod size 8) = size := by
    rw [ht]; unfold wrapInt; omega
  have hc : ¬ (size < 0 ∨ (maxAlloc : Int) < size) := by omega
  have key : ∀ hs : List Hash64,
      ∃ bl, Custom size hs = some bl ∧ (bl.bitset.length : Int) = size := by
    intro hs
    refine ⟨BloomFilter.mk (List.replicate size.toNat false) hs, ?_, ?_⟩
    · unfold Custom
      simp only [hw, hc, if_false]
    · simp only [List.length_replicate]
      exact Int.toNat_of_nonneg h0
  exact ⟨key hashfns, key basicHashfns⟩

/-- Witness of C14 (amended): the sizes 16 and 0. -/
theorem exact_multiples_are_kept_witness :
    ((0 : Int) ≤ 16 ∧ (16 : Int) ≤ maxAlloc ∧ (16 : Int) % 8 = 0) ∧
    ((∃ bl, Custom 16 basicHashfns = some bl ∧ (bl.bitset.length : Int) = 16) ∧
      ∃ bl, Basic 16 = some bl ∧ (bl.bitset.length : Int) = 16) ∧
    ((∃ bl, Custom 0 [] = some bl ∧ (bl.bitset.length : Int) = 0) ∧
      ∃ bl, Basic 0 = some bl ∧ (bl.bitset.length : Int) = 0) :=
  ⟨⟨by decide, by decide, by decide⟩,
    exact_multiples_are_kept 16 basicHashfns (by decide) (by decide) (by decide),
    exact_multiples_are_kept 0 [] (by decide) (by decide) (by decide)⟩

/-- C14 as stated fails: `2 ^ 62` is a multiple of 8 in the range of a Go
`int`, it is left unchanged by `size += size % 8`, and `make([]bool, size)`
panics on it ("makeslice: len out of range"), so neither `Custom` nor `Basic`
returns a filter. -/
theorem custom_panics_on_huge_multiple :
    (0 : Int) ≤ 2 ^ 62 ∧ (2 : Int) ^ 62 < 2 ^ 63 ∧ (2 : Int) ^ 62 % 8 = 0 ∧
      wrapInt (2 ^ 62 + Int.tmod (2 ^ 62) 8) = 2 ^ 62 ∧
      Custom (2 ^ 62) [] = none ∧ Custom (2 ^ 62) basicHashfns = none ∧
      Basic (2 ^ 62) = none :=
  ⟨by decide, by decide, by decide, by decide, rfl, rfl, rfl⟩

/-! ## The mutex, the digests and the index -/

/-- C15 (evaluation at the failing input): `Insert` calls `sums` before it
takes the mutex.  Two goroutines insert "Hello, world!" and "a" into
`Basic 100` under the interleaving `raceSchedule`: both calls complete, the
hashers were used by a goroutine that did not hold the mutex, the first
goroutine got the digests of "Hello, world!a" (bits 91, 103, 1, 26) instead
of those of "Hello, world!" (bits 14, 76, 74, 92), and a later `Search` for
the inserted "Hello, world!" returns `false`. -/
theorem racing_inserts_lose_an_element :
    ∃ bl sys, Basic 100 = some bl ∧
      (insertActions 4 helloWorld).take 4 =
        [InsertStep.hashWrite 0 helloWorld, InsertStep.hashSum64 0, InsertStep.hashReset 0,
          InsertStep.hashWrite 1 helloWorld] ∧
      (twoInserts bl helloWorld [97]).exec raceSchedule = some sys ∧
      sys.first.todo = [] ∧ sys.second.todo = [] ∧
      sys.shared.unguarded = true ∧
      sys.first.sums.map (fun s => s % 104) = [91, 103, 1, 26] ∧
      (bl.sums helloWorld).1.map (fun s => s % 104) = [14, 76, 74, 92] ∧
      (sys.shared.bl.Search helloWorld).map (fun r => r.1) = some false :=
  ⟨BloomFilter.mk (List.replicate 104 false) basicHashfns, _, rfl, rfl, rfl, rfl, rfl, rfl,
    by decide, by decide, by decide⟩

/-- C16: when every hasher of the filter is in its reset state, `sums data`
returns one digest per hasher, in hasher order, each the hasher's 64-bit
digest of exactly `data`, and leaves the filter, with every hasher reset
again, as it was; so the digests are the same after any completed sequence
of calls. -/
theorem sums_digest_of_data (bl : BloomFilter) (data : List Byte)
    (hr : ∀ h ∈ bl.hashfns, h.written = []) :
    (bl.sums data).1 = bl.hashfns.map (fun h => h.digest data % 2 ^ 64) ∧
      (bl.sums data).1.length = bl.hashfns.length ∧
      (bl.sums data).2 = bl ∧
      (∀ h ∈ (bl.sums data).2.hashfns, h.written = []) ∧
      ∀ (cs : List Call) (bl' : BloomFilter), bl.run cs = some bl' →
        (bl'.sums data).1 = (bl.sums data).1 := by
  have h1 : (bl.sums data).1 = bl.hashfns.map (fun h => h.digest data % 2 ^ 64) := by
    rw [sums_fst]
    apply List.map_congr_left
    intro h hh
    simp only [Hash64.Write, Hash64.Sum64, hr h hh, List.nil_append]
  have h2 : (bl.sums data).2 = bl := by
    rw [sums_snd, map_reset_of_reset _ _ hr]
  refine ⟨h1, by rw [h1, List.length_map], h2, by rw [h2]; exact hr, fun cs bl' hrun => ?_⟩
  rw [sums_fst, sums_fst, (run_shape cs bl bl' hrun).2.1 hr]

/-- Witness of C16: the four hashers of `Basic` and "Hello, world!". -/
theorem sums_digest_of_data_witness :
    (∀ h ∈ (BloomFilter.mk [] basicHashfns).hashfns, h.written = []) ∧
    ((BloomFilter.mk [] basicHashfns).sums helloWorld).1 =
      [fnv64 helloWorld % 2 ^ 64, fnv64a helloWorld % 2 ^ 64,
        crc64 crc64ISO helloWorld % 2 ^ 64, crc64 crc64ECMA helloWorld % 2 ^ 64] :=
  ⟨by simp [basicHashfns],
    (sums_digest_of_data (BloomFilter.mk [] basicHashfns) helloWorld
      (by simp [basicHashfns])).1⟩

/-- C17: on a filter whose bitset has length `N > 0`, `index sum` completes
for every digest with the value `sum % N`, which is below `N`, so the bit
read of `Search` and the bit write of `Insert` at that index are in range,
and `Insert` and `Search` complete for every byte sequence. -/
theorem index_in_range (bl : BloomFilter) (sum : Nat) (x : List Byte)
    (hne : bl.bitset ≠ []) :
    (∃ i, bl.index sum = some i ∧ i = sum % bl.bitset.length ∧ i < bl.bitset.length ∧
      (∃ bits, setBit bl.bitset i = some bits) ∧ ∃ bit, bl.bitset[i]? = some bit) ∧
    (∃ bl', bl.Insert x = some bl') ∧ ∃ r, bl.Search x = some r := by
  have hlen : bl.bitset.length ≠ 0 := fun h => hne (List.length_eq_zero.mp h)
  have hlt : sum % bl.bitset.length < bl.bitset.length :=
    Nat.mod_lt _ (Nat.pos_of_ne_zero hlen)
  refine ⟨⟨sum % bl.bitset.length, ?_, rfl, hlt,
      ⟨bl.bitset.set (sum % bl.bitset.length) true, ?_⟩, ⟨_, List.getElem?_eq_getElem hlt⟩⟩,
    ⟨_, insert_eq bl x hne⟩, ⟨_, search_eq bl x hne⟩⟩
  · simp only [BloomFilter.index, hlen, if_false]
  · simp only [setBit, hlt, if_true]

/-- Witness of C17: a three-bit filter and the digest `2 ^ 64 - 1`. -/
theorem index_in_range_witness :
    (BloomFilter.mk [false, true, false] basicHashfns).bitset ≠ [] ∧
    (BloomFilter.mk [false, true, false] basicHashfns).index (2 ^ 64 - 1) = some 0 := by
  obtain ⟨⟨i, h1, h2, -⟩, -⟩ := index_in_range
    (BloomFilter.mk [false, true, false] basicHashfns) (2 ^ 64 - 1) helloWorld (by simp)
  refine ⟨by simp, ?_⟩
  rw [h1, h2]
  rfl

/-! ## Round trips between bits and bytes -/

theorem list_bool_ext (a b : List Bool) (hlen : a.length = b.length)
    (h : ∀ p : Nat, a[p]? = some true ↔ b[p]? = some true) : a = b := by
  apply List.ext_getElem? 
  intro p
  by_cases hp : p < a.length
  · have hp' : p < b.length := hlen ▸ hp
    have hp2 := h p
    rw [List.getElem?_eq_getElem hp, List.getElem?_eq_getElem hp'] at hp2 ⊢
    cases ha : a[p] <;> cases hb : b[p] <;> simp_all
  · have hp' : ¬ p < b.length := hlen ▸ hp
    rw [List.getElem?_eq_none (Nat.le_of_not_lt hp), List.getElem?_eq_none (Nat.le_of_not_lt hp')]

theorem byte_ext (a b : Byte)
    (h : ∀ j : Nat, j < 8 → a.val.testBit (7 - j) = b.val.testBit (7 - j)) : a = b := by
  apply Fin.ext
  apply Nat.eq_of_testBit_eq
  intro i
  by_cases hi : i < 8
  · have := h (7 - i) (by omega)
    have e : 7 - (7 - i) = i := by omega
    rw [e] at this
    exact this
  · have h256 : ∀ c : Byte, c.val.testBit i = false := by
      intro c
      apply Nat.testBit_lt_two_pow
      calc c.val < 256 := c.isLt
        _ = 2 ^ 8 := rfl
        _ ≤ 2 ^ i := Nat.pow_le_pow_right (by decide) (by omega)
    rw [h256 a, h256 b]

theorem bytes_ext (a b : List Byte) (hlen : a.length = b.length)
    (h : ∀ p : Nat, bitAt a p = some true ↔ bitAt b p = some true) : a = b := by
  apply List.ext_getElem hlen
  intro k h1 h2
  apply byte_ext
  intro j hj
  have e1 : (8 * k + j) / 8 = k := by omega
  have e2 : (8 * k + j) % 8 = j := by omega
  have hk := h (8 * k + j)
  unfold bitAt at hk
  rw [e1, e2, List.getElem?_eq_getElem h1, List.getElem?_eq_getElem h2] at hk
  simp only [Option.map_some', Option.some.injEq] at hk
  cases ha : a[k].val.testBit (7 - j) <;> cases hb : b[k].val.testBit (7 - j) <;> simp_all

/-- Marshalling a bitset and unmarshalling the bytes into any filter gives
the bitset followed by `false` up to the next multiple of 8. -/
theorem marshal_unmarshal (bl other : BloomFilter) :
    ∃ data, bl.MarshalBinary = some (data, none) ∧
      data.length = (bl.bitset.length + 7) / 8 ∧
      other.UnmarshalBinary data = some
        (BloomFilter.mk
          (bl.bitset ++
            List.replicate (8 * ((bl.bitset.length + 7) / 8) - bl.bitset.length) false)
          other.hashfns, none) := by
  obtain ⟨data, h1, h2, h3⟩ := marshalBinary_eq bl
  obtain ⟨bits, g1, -, g3, g4⟩ := unmarshalBinary_eq other data
  refine ⟨data, h1, h2, ?_⟩
  rw [g1]
  have e : bits = bl.bitset ++
      List.replicate (8 * ((bl.bitset.length + 7) / 8) - bl.bitset.length) false := by
    apply list_bool_ext
    · rw [g3, h2, List.length_append, List.length_replicate]
      omega
    · intro p
      rw [g4, h3]
      by_cases hp : p < bl.bitset.length
      · rw [List.getElem?_append_left hp]
      · rw [List.getElem?_eq_none (Nat.le_of_not_lt hp),
          List.getElem?_append_right (Nat.le_of_not_lt hp), List.getElem?_replicate]
        split <;> simp
  rw [e]

/-- C19: for every filter and every byte sequence `data`, `UnmarshalBinary
data` followed by `MarshalBinary` completes and returns exactly `data`, with
the `nil` error both times. -/
theorem unmarshal_then_marshal (bl : BloomFilter) (data : List Byte) :
    ∃ bl', bl.UnmarshalBinary data = some (bl', none) ∧
      bl'.MarshalBinary = some (data, none) := by
  obtain ⟨bits, g1, -, g3, g4⟩ := unmarshalBinary_eq bl data
  obtain ⟨data', h1, h2, h3⟩ := marshalBinary_eq (BloomFilter.mk bits bl.hashfns)
  refine ⟨BloomFilter.mk bits bl.hashfns, g1, ?_⟩
  rw [h1]
  have e : data' = data := by
    apply bytes_ext
    · rw [h2]
      simp only [g3]
      omega
    · intro p
      rw [h3]
      simp only [g4]
  rw [e]

/-- C20: `UnmarshalBinary` applied to the output of `MarshalBinary` gives a
bitset of length `8 * ceil(N / 8)` that is the old bitset followed by
`false`s: it agrees with the old one at every index below `N`, is false from
`N` on, and equals the old one exactly when `N` is a multiple of 8. -/
theorem marshal_then_unmarshal (bl : BloomFilter) :
    ∃ data bits, bl.MarshalBinary = some (data, none) ∧
      bl.UnmarshalBinary data = some (BloomFilter.mk bits bl.hashfns, none) ∧
      bits.length = 8 * ((bl.bitset.length + 7) / 8) ∧
      bits = bl.bitset ++ List.replicate (bits.length - bl.bitset.length) false ∧
      (∀ i : Nat, i < bl.bitset.length → bits[i]? = bl.bitset[i]?) ∧
      (∀ i : Nat, bl.bitset.length ≤ i → i < bits.length → bits[i]? = some false) ∧
      (bits = bl.bitset ↔ bl.bitset.length % 8 = 0) := by
  obtain ⟨data, h1, -, h3⟩ := marshal_unmarshal bl bl
  have hlen : (bl.bitset ++
      List.replicate (8 * ((bl.bitset.length + 7) / 8) - bl.bitset.length) false).length =
      8 * ((bl.bitset.length + 7) / 8) := by
    rw [List.length_append, List.length_replicate]
    omega
  refine ⟨data, _, h1, h3, hlen, ?_, fun i hi => ?_, fun i hi hi2 => ?_, ?_⟩
  · rw [hlen]
  · rw [List.getElem?_append_left hi]
  · rw [List.getElem?_append_right hi, List.getElem?_replicate]
    rw [hlen] at hi2
    rw [if_pos (by omega)]
  · constructor
    · intro h
      have := congrArg List.length h
      rw [hlen] at this
      omega
    · intro h
      have e : 8 * ((bl.bitset.length + 7) / 8) - bl.bitset.length = 0 := by omega
      rw [e]
      simp

/-- Witness of C20: three bits come back as eight. -/
theorem marshal_then_unmarshal_witness :
    (1 : Nat) < (BloomFilter.mk [true, false, true] []).bitset.length ∧
    ∃ data bits, (BloomFilter.mk [true, false, true] []).MarshalBinary = some (data, none) ∧
      (BloomFilter.mk [true, false, true] []).UnmarshalBinary data =
        some (BloomFilter.mk bits [], none) ∧
      bits.length = 8 ∧ bits[1]? = some false := by
  obtain ⟨data, bits, h1, h2, h3, -, h5, -⟩ :=
    marshal_then_unmarshal (BloomFilter.mk [true, false, true] [])
  exact ⟨by decide, data, bits, h1, h2, h3, by rw [h5 1 (by decide)]; rfl⟩

/-- C18 (amended): on a filter built by `Custom size hashfns` (`Basic size` is
`Custom size basicHashfns`) with at least one hasher, every hasher in its
reset state, and a non-empty bitset whose length is a multiple of 8:
after `Insert x`, the bytes of `MarshalBinary` unmarshalled into any filter
`other` with the same hashers (the filter itself after the insert, or one
built with the same size and hashers) give a filter on which `Search x`
returns `true`. -/
theorem membership_survives_persistence (size : Int) (hashfns : List Hash64)
    (bl other : BloomFilter) (x : List Byte)
    (hbuilt : Custom size hashfns = some bl) (hh : hashfns ≠ [])
    (hreset : ∀ h ∈ hashfns, h.written = []) (hne : bl.bitset ≠ [])
    (h8 : bl.bitset.length % 8 = 0) (hother : other.hashfns = hashfns) :
    ∃ bl1 data bl2 bl3, bl.Insert x = some bl1 ∧ bl1.MarshalBinary = some (data, none) ∧
      other.UnmarshalBinary data = some (bl2, none) ∧ bl2.Search x = some (true, bl3) := by
  have hf : bl.hashfns = hashfns := custom_hashfns size hashfns bl hbuilt
  obtain ⟨bl1, bl2, bl3, a1, a2, a3⟩ :=
    search_after_insert bl x [] hne (hf ▸ hh) (hf ▸ hreset)
  simp only [BloomFilter.insertAll, Option.some.injEq] at a2
  subst a2
  obtain ⟨s1, s2⟩ := insert_shape bl bl1 x a1
  rw [map_reset_of_reset _ _ (hf ▸ hreset), hf] at s1
  obtain ⟨data, m1, -, m3⟩ := marshal_unmarshal bl1 other
  have e : 8 * ((bl1.bitset.length + 7) / 8) - bl1.bitset.length = 0 := by omega
  rw [e, List.replicate_zero, List.append_nil, hother, ← s1] at m3
  exact ⟨bl1, data, bl1, bl3, a1, m1, m3, a3⟩

/-- Witness of C18 (amended): `Basic 8`, "Hello, world!", reloaded into a
second `Basic 8`. -/
theorem membership_survives_persistence_witness :
    (Custom 8 basicHashfns = some (BloomFilter.mk (List.replicate 8 false) basicHashfns) ∧
      (BloomFilter.mk (List.replicate 8 false) basicHashfns).bitset.length % 8 = 0) ∧
    ∃ bl1 data bl2 bl3,
      (BloomFilter.mk (List.replicate 8 false) basicHashfns).Insert helloWorld = some bl1 ∧
      bl1.MarshalBinary = some (data, none) ∧
      (BloomFilter.mk (List.replicate 8 false) basicHashfns).UnmarshalBinary data =
        some (bl2, none) ∧
      bl2.Search helloWorld = some (true, bl3) :=
  ⟨⟨rfl, rfl⟩,
    membership_survives_persistence 8 basicHashfns
      (BloomFilter.mk (List.replicate 8 false) basicHashfns)
      (BloomFilter.mk (List.replicate 8 false) basicHashfns) helloWorld rfl
      (by simp [basicHashfns]) (by simp [basicHashfns]) (by simp) rfl rfl⟩

/-- C18 as stated fails: with a hasher handed to `Custom` after the byte `a`
was written into it, `Insert "Hello, world!"` marks bit 3 of 8, the bits
survive `MarshalBinary` and `UnmarshalBinary` unchanged, and `Search
"Hello, world!"` on the reloaded filter tests bit 6 and returns `false`. -/
theorem reloaded_filter_misses_element :
    ∃ bl bl1 bl2 bl3, Custom 8 [{ digest := fnv64, written := [97] }] = some bl ∧
      bl.bitset ≠ [] ∧ bl.Insert helloWorld = some bl1 ∧
      bl1.MarshalBinary = some ([16], none) ∧
      bl1.UnmarshalBinary [16] = some (bl2, none) ∧ bl2.bitset = bl1.bitset ∧
      bl2.Search helloWorld = some (false, bl3) :=
  ⟨BloomFilter.mk (List.replicate 8 false) [{ digest := fnv64, written := [97] }], _, _, _,
    rfl, by simp, rfl, by decide, rfl, by decide, rfl⟩

/-- The rounding of `Custom` also breaks persistence: `Basic 10` has 12 bits,
`Insert "Z"` sets the bits 9, 8, 4 (digests modulo 12), the reloaded filter
has 16 bits, and `Search "Z"` on it tests the bits 5, 13, 0, 12 (digests
modulo 16) and returns `false`. -/
theorem reloaded_basic_ten_misses_element :
    ∃ bl bl1 data bl2 bl3, Basic 10 = some bl ∧ bl.Insert [90] = some bl1 ∧
      bl1.MarshalBinary = some (data, none) ∧
      bl1.UnmarshalBinary data = some (bl2, none) ∧
      bl1.String = "000010001100" ∧ bl2.String = "0000100011000000" ∧
      bl2.Search [90] = some (false, bl3) :=
  ⟨BloomFilter.mk (List.replicate 12 false) basicHashfns, _, [8, 192], _, _,
    rfl, rfl, by decide, rfl, by decide, by decide, rfl⟩
